import Mathlib

/-!
Shallow embedding of `src/app/streamlit_app.py` (english-tts-coach).

Strings are modelled as `List Char`; whitespace is `Char.isWhitespace`
(the ASCII fragment of Python's notion, which is what the app's inputs use).
Byte buffers are modelled as `List Nat`.  The fallible external collaborators
(the edge-tts stream and the translator) are modelled as explicit function
parameters returning `Except Unit _`, mirroring Python exceptions.
-/

/-- Python `str.strip()`: drop whitespace from both ends. -/
def pyStrip (l : List Char) : List Char :=
  ((l.dropWhile Char.isWhitespace).reverse.dropWhile Char.isWhitespace).reverse

/-- True when the list does not start with a whitespace character. -/
def noLead : List Char → Bool
  | [] => true
  | c :: _ => !c.isWhitespace

/-- True when the list does not end with a whitespace character. -/
def noTrail (l : List Char) : Bool := noLead l.reverse

/-- Non-empty and stripped on both ends. -/
def strippedNE (l : List Char) : Prop :=
  l ≠ [] ∧ noLead l = true ∧ noTrail l = true

instance (l : List Char) : Decidable (strippedNE l) := by
  unfold strippedNE; infer_instance

/-- Sentence-ending punctuation of the regex `(?<=[.!?])\s+`. -/
def isSentEnd (c : Char) : Bool := c == '.' || c == '!' || c == '?'

/-- Does the reversed accumulator end (in reading order) with sentence punctuation? -/
def endsSent : List Char → Bool
  | [] => false
  | c :: _ => isSentEnd c

/-- Left-to-right automaton implementing `re.split(r"(?<=[.!?])\s+", text)`:
in normal mode (`skip = false`) characters accumulate into `acc` (reversed);
a whitespace character immediately after `.`/`!`/`?` closes the current piece
and enters whitespace-skipping mode; skipping mode consumes the whitespace run
and reopens a piece at the first non-whitespace character. -/
def splitAux : List Char → Bool → List Char → List (List Char)
  | [], _, acc => [acc.reverse]
  | c :: rest, true, _ =>
      if c.isWhitespace then splitAux rest true []
      else splitAux rest false [c]
  | c :: rest, false, acc =>
      if c.isWhitespace && endsSent acc then
        acc.reverse :: splitAux rest true []
      else splitAux rest false (c :: acc)

/-- `re.split(r"(?<=[.!?])\s+", t)` from `chunk_text`. -/
def splitSentences (t : List Char) : List (List Char) := splitAux t false []

/-- The greedy packing loop of `chunk_text`: `for s in sentences: ...` with
running buffer `buf`, plus the trailing `if buf: chunks.append(buf)` flush. -/
def packLoop (m : Nat) (buf : List Char) : List (List Char) → List (List Char)
  | [] => if buf.isEmpty then [] else [buf]
  | s :: ss =>
      if buf.length + s.length + 1 ≤ m then
        packLoop m (pyStrip (buf ++ ' ' :: s)) ss
      else if buf.isEmpty then
        packLoop m s ss
      else
        buf :: packLoop m s ss

/-- `chunk_text(text, max_chars)` from the app. -/
def chunk_text (text : List Char) (max_chars : Nat) : List (List Char) :=
  if (pyStrip text).length ≤ max_chars then [pyStrip text]
  else packLoop max_chars [] (splitSentences (pyStrip text))

/-- Join pieces with a single space between consecutive pieces. -/
def joinSp : List (List Char) → List Char
  | [] => []
  | [s] => s
  | s :: ss => s ++ ' ' :: joinSp ss

/-- Join a (possibly empty) buffer in front of an already-joined remainder. -/
def joinBufSp (buf r : List Char) : List Char :=
  if buf = [] then r else if r = [] then buf else buf ++ ' ' :: r

/-- `free_translate_to_english(text)`: empty-after-strip input short-circuits
to the empty string; an unavailable collaborator (`GoogleTranslator is None`)
returns the input unchanged; an exception from the collaborator is caught and
the input is returned unchanged. -/
def free_translate_to_english
    (translator : Option (List Char → Except Unit (List Char)))
    (text : List Char) : List Char :=
  if (pyStrip text).isEmpty then []
  else
    match translator with
    | none => text
    | some tr =>
        match tr text with
        | Except.ok res => res
        | Except.error _ => text

/-- A stream frame of the synthesis collaborator: a type tag and a data payload. -/
abbrev Frame := List Char × List Nat

/-- The frame-type tag string "audio". -/
def audioType : List Char := ['a', 'u', 'd', 'i', 'o']

/-- Concatenation of byte buffers, Python `b"".join(parts)`. -/
def joinBytes : List (List Nat) → List Nat
  | [] => []
  | b :: bs => b ++ joinBytes bs

/-- The audio payload of a frame stream: data of the audio-typed frames, in order. -/
def audioBytes (frames : List Frame) : List Nat :=
  joinBytes ((frames.filter (fun fr => fr.1 == audioType)).map Prod.snd)

/-- `edge_tts_once(text, voice, rate, pitch)`: run the collaborator's stream and
extend a byte buffer with the data of each frame whose type is "audio".
A raised exception propagates (no partial buffer is returned). -/
def edge_tts_once
    (svc : List Char → List Char → List Char → List Char → Except Unit (List Frame))
    (text voice rate pitch : List Char) : Except Unit (List Nat) :=
  match svc text voice rate pitch with
  | Except.error e => Except.error e
  | Except.ok frames =>
      Except.ok (frames.foldl
        (fun acc fr => if fr.1 == audioType then acc ++ fr.2 else acc) [])

/-- The `parts` accumulation loop of `synth_all`: one `edge_tts_once` call per
chunk, in order; the first failure aborts the whole loop. -/
def synthParts
    (svc : List Char → List Char → List Char → List Char → Except Unit (List Frame))
    (voice rate pitch : List Char) : List (List Char) → Except Unit (List (List Nat))
  | [] => Except.ok []
  | c :: cs =>
      match edge_tts_once svc c voice rate pitch with
      | Except.error e => Except.error e
      | Except.ok b =>
          match synthParts svc voice rate pitch cs with
          | Except.error e => Except.error e
          | Except.ok bs => Except.ok (b :: bs)

/-- `synth_all(text, voice_id, rate, pitch)`: chunk with the default
`max_chars = 2000`, synthesize each chunk, and join the byte buffers. -/
def synth_all
    (svc : List Char → List Char → List Char → List Char → Except Unit (List Frame))
    (text voice rate pitch : List Char) : Except Unit (List Nat) :=
  match synthParts svc voice rate pitch (chunk_text text 2000) with
  | Except.error e => Except.error e
  | Except.ok parts => Except.ok (joinBytes parts)

/-- The sign character of Python's `+d` format. -/
def signChar (v : Int) : Char := if 0 ≤ v then '+' else '-'

/-- `rate_str = f"{rate_val:+d}%"`. -/
def rate_str (v : Int) : List Char :=
  signChar v :: (Nat.toDigits 10 v.natAbs ++ ['%'])

/-- `pitch_str = f"{pitch_val:+d}Hz"`. -/
def pitch_str (v : Int) : List Char :=
  signChar v :: (Nat.toDigits 10 v.natAbs ++ ['H', 'z'])

/-- The state of the embedded A/B loop widget: loop endpoints `A`/`B`,
the `looping` flag, the remaining-repeats counter `left`, the audio
element's current position and playing flag. -/
structure LoopState where
  A : Rat
  B : Rat
  looping : Bool
  left : Nat
  pos : Rat
  playing : Bool
deriving DecidableEq, Repr

/-- `btnStart.onclick` of the embedded widget: when not looping, `B <= A`
alerts and returns with no state change; otherwise the repeat counter is
loaded, looping starts, the position seeks to `A` and playback starts.
When already looping, the click stops the loop.  The second component is
the "warning shown" flag (the `alert`). -/
def pressStart (n : Nat) (s : LoopState) : LoopState × Bool :=
  if s.looping = false then
    if s.B ≤ s.A then (s, true)
    else ({ s with left := n, looping := true, pos := s.A, playing := true }, false)
  else ({ s with looping := false }, false)

/-! ### Whitespace-edge helper lemmas -/

theorem length_dropWhile_le_ws (p : Char → Bool) :
    ∀ l : List Char, (l.dropWhile p).length ≤ l.length := by
  intro l
  induction l with
  | nil => simp
  | cons c t ih =>
      by_cases h : p c
      · simpa [List.dropWhile_cons, h] using Nat.le_succ_of_le ih
      · simp [List.dropWhile_cons, h]

theorem dropWhile_is_suffix (p : Char → Bool) :
    ∀ l : List Char, ∃ u, u ++ l.dropWhile p = l := by
  intro l
  induction l with
  | nil => exact ⟨[], rfl⟩
  | cons c t ih =>
      by_cases h : p c
      · obtain ⟨u, hu⟩ := ih
        exact ⟨c :: u, by simp [List.dropWhile_cons, h, hu]⟩
      · exact ⟨[], by simp [List.dropWhile_cons, h]⟩

theorem noLead_dropWhile_ws :
    ∀ l : List Char, noLead (l.dropWhile Char.isWhitespace) = true := by
  intro l
  induction l with
  | nil => rfl
  | cons c t ih =>
      by_cases h : c.isWhitespace
      · simpa [List.dropWhile_cons, h] using ih
      · simp [List.dropWhile_cons, h, noLead]

theorem noLead_append_left (x y : List Char) (hx : x ≠ []) :
    noLead (x ++ y) = noLead x := by
  cases x with
  | nil => exact absurd rfl hx
  | cons a t => simp [noLead]

theorem noLead_of_append {x y : List Char} (h : noLead (x ++ y) = true) :
    noLead x = true := by
  cases x with
  | nil => rfl
  | cons a t => simpa [noLead] using h

theorem noTrail_append_right (x y : List Char) (hy : y ≠ []) :
    noTrail (x ++ y) = noTrail y := by
  unfold noTrail
  rw [List.reverse_append]
  exact noLead_append_left _ _ (by simpa using hy)

theorem noTrail_of_append {x y : List Char} (h : noTrail (x ++ y) = true) :
    noTrail y = true := by
  unfold noTrail at *
  rw [List.reverse_append] at h
  exact noLead_of_append h

theorem noTrail_dropWhile_ws {l : List Char} (h : noTrail l = true) :
    noTrail (l.dropWhile Char.isWhitespace) = true := by
  obtain ⟨u, hu⟩ := dropWhile_is_suffix Char.isWhitespace l
  rw [← hu] at h
  exact noTrail_of_append h

theorem noLead_pyStrip (l : List Char) : noLead (pyStrip l) = true := by
  unfold pyStrip
  obtain ⟨u, hu⟩ :=
    dropWhile_is_suffix Char.isWhitespace (l.dropWhile Char.isWhitespace).reverse
  have h2 : ((l.dropWhile Char.isWhitespace).reverse.dropWhile Char.isWhitespace).reverse
      ++ u.reverse = l.dropWhile Char.isWhitespace := by
    have := congrArg List.reverse hu
    simpa [List.reverse_append] using this
  have h3 : noLead (((l.dropWhile Char.isWhitespace).reverse.dropWhile
      Char.isWhitespace).reverse ++ u.reverse) = true := by
    rw [h2]; exact noLead_dropWhile_ws l
  exact noLead_of_append h3

theorem noTrail_pyStrip (l : List Char) : noTrail (pyStrip l) = true := by
  unfold pyStrip noTrail
  rw [List.reverse_reverse]
  exact noLead_dropWhile_ws _

theorem dropWhile_of_noLead {l : List Char} (h : noLead l = true) :
    l.dropWhile Char.isWhitespace = l := by
  cases l with
  | nil => rfl
  | cons c t =>
      have : c.isWhitespace = false := by simpa [noLead] using h
      simp [List.dropWhile_cons, this]

theorem pyStrip_of_stripped {l : List Char} (h1 : noLead l = true)
    (h2 : noTrail l = true) : pyStrip l = l := by
  unfold pyStrip
  rw [dropWhile_of_noLead h1, dropWhile_of_noLead h2, List.reverse_reverse]

theorem pyStrip_length_le (l : List Char) : (pyStrip l).length ≤ l.length := by
  unfold pyStrip
  calc ((l.dropWhile Char.isWhitespace).reverse.dropWhile Char.isWhitespace).reverse.length
      = ((l.dropWhile Char.isWhitespace).reverse.dropWhile Char.isWhitespace).length := by
        simp
    _ ≤ (l.dropWhile Char.isWhitespace).reverse.length := length_dropWhile_le_ws _ _
    _ = (l.dropWhile Char.isWhitespace).length := by simp
    _ ≤ l.length := length_dropWhile_le_ws _ _

theorem pyStrip_space_cons (s : List Char) : pyStrip (' ' :: s) = pyStrip s := by
  unfold pyStrip
  have : (' ' : Char).isWhitespace = true := by decide
  simp [List.dropWhile_cons, this]

theorem sentEnd_not_ws {c : Char} (h : isSentEnd c = true) :
    c.isWhitespace = false := by
  unfold isSentEnd at h
  rcases Bool.or_eq_true_iff.mp h with h1 | h2
  · rcases Bool.or_eq_true_iff.mp h1 with ha | hb
    · rw [show c = '.' from by simpa using ha]; decide
    · rw [show c = '!' from by simpa using hb]; decide
  · rw [show c = '?' from by simpa using h2]; decide

/-! ### Sentence splitter invariants -/

theorem splitAux_pieces : ∀ (l : List Char) (skip : Bool) (acc : List Char),
    (skip = true → noTrail l = true ∧ l ≠ []) →
    (skip = false → strippedNE (acc.reverse ++ l)) →
    ∀ p ∈ splitAux l skip acc, strippedNE p := by
  intro l
  induction l with
  | nil =>
      intro skip acc h1 h2 p hp
      cases skip with
      | true => exact absurd rfl (h1 rfl).2
      | false =>
          simp only [splitAux, List.mem_singleton] at hp
          subst hp
          simpa using h2 rfl
  | cons c rest ih =>
      intro skip acc h1 h2 p hp
      cases skip with
      | true =>
          obtain ⟨htr, -⟩ := h1 rfl
          have htr' : noTrail rest = true :=
            noTrail_of_append (x := [c]) (y := rest) htr
          by_cases hw : c.isWhitespace
          · simp only [splitAux, hw, if_true] at hp
            have hne : rest ≠ [] := by
              intro h0
              subst h0
              have : c.isWhitespace = false := by simpa [noTrail, noLead] using htr
              rw [this] at hw
              exact Bool.noConfusion hw
            exact ih true [] (fun _ => ⟨htr', hne⟩) (by intro h0; cases h0) p hp
          · simp only [splitAux, hw, if_false] at hp
            refine ih false [c] (by intro h0; cases h0) (fun _ => ?_) p hp
            refine ⟨by simp, ?_, ?_⟩
            · simpa [noLead] using hw
            · simpa using htr
      | false =>
          have hs := h2 rfl
          by_cases hb : (c.isWhitespace && endsSent acc) = true
          · simp only [splitAux, hb, if_true, List.mem_cons] at hp
            obtain ⟨hw, hes⟩ := Bool.and_eq_true_iff.mp hb
            have hacc : acc ≠ [] := by
              intro h0; subst h0; simp [endsSent] at hes
            rcases hp with hp | hp
            · subst hp
              refine ⟨by simpa using hacc, ?_, ?_⟩
              · exact noLead_of_append (y := c :: rest) hs.2.1
              · obtain ⟨a, acc', rfl⟩ : ∃ a acc', acc = a :: acc' := by
                  cases acc with
                  | nil => exact absurd rfl hacc
                  | cons a acc' => exact ⟨a, acc', rfl⟩
                have ha : isSentEnd a = true := by simpa [endsSent] using hes
                simp [noTrail, noLead, sentEnd_not_ws ha]
            · have htr : noTrail (c :: rest) = true :=
                noTrail_of_append (x := acc.reverse) hs.2.2
              have htr' : noTrail rest = true :=
                noTrail_of_append (x := [c]) (y := rest) htr
              have hne : rest ≠ [] := by
                intro h0
                subst h0
                have : c.isWhitespace = false := by simpa [noTrail, noLead] using htr
                rw [this] at hw
                exact Bool.noConfusion hw
              exact ih true [] (fun _ => ⟨htr', hne⟩) (by intro h0; cases h0) p hp
          · simp only [splitAux, hb, if_false] at hp
            refine ih false (c :: acc) (by intro h0; cases h0) (fun _ => ?_) p hp
            have : (c :: acc).reverse ++ rest = acc.reverse ++ (c :: rest) := by
              simp
            rw [this]
            exact hs

theorem splitSentences_pieces {t : List Char} (h : strippedNE t) :
    ∀ p ∈ splitSentences t, strippedNE p := by
  intro p hp
  exact splitAux_pieces t false [] (by intro h0; cases h0) (fun _ => by simpa using h) p hp

/-! ### Packing loop invariants -/

theorem packLoop_ne_nil_mem (m : Nat) :
    ∀ (ss : List (List Char)) (buf : List Char),
      ∀ ch ∈ packLoop m buf ss, ch ≠ [] := by
  intro ss
  induction ss with
  | nil =>
      intro buf ch hch
      by_cases hb : buf.isEmpty
      · simp [packLoop, hb] at hch
      · rw [packLoop, if_neg hb] at hch
        rw [List.mem_singleton] at hch
        subst hch
        simpa [List.isEmpty_iff] using hb
  | cons s ss ih =>
      intro buf ch hch
      by_cases h1 : buf.length + s.length + 1 ≤ m
      · rw [packLoop, if_pos h1] at hch
        exact ih _ ch hch
      · rw [packLoop, if_neg h1] at hch
        by_cases hb : buf.isEmpty
        · rw [if_pos hb] at hch
          exact ih _ ch hch
        · rw [if_neg hb] at hch
          rcases List.mem_cons.mp hch with hch | hch
          · subst hch; simpa [List.isEmpty_iff] using hb
          · exact ih _ ch hch

theorem packLoop_stripped (m : Nat) :
    ∀ (ss : List (List Char)) (buf : List Char),
      (buf = [] ∨ (noLead buf = true ∧ noTrail buf = true)) →
      (∀ s ∈ ss, noLead s = true ∧ noTrail s = true) →
      ∀ ch ∈ packLoop m buf ss, noLead ch = true ∧ noTrail ch = true := by
  intro ss
  induction ss with
  | nil =>
      intro buf hbuf _ ch hch
      by_cases hb : buf.isEmpty
      · simp [packLoop, hb] at hch
      · rw [packLoop, if_neg hb] at hch
        rw [List.mem_singleton] at hch
        subst hch
        rcases hbuf with h0 | h0
        · subst h0; simp [List.isEmpty_iff] at hb
        · exact h0
  | cons s ss ih =>
      intro buf hbuf hss ch hch
      have hs : noLead s = true ∧ noTrail s = true := hss s (by simp)
      have hss' : ∀ x ∈ ss, noLead x = true ∧ noTrail x = true :=
        fun x hx => hss x (by simp [hx])
      by_cases h1 : buf.length + s.length + 1 ≤ m
      · rw [packLoop, if_pos h1] at hch
        exact ih _ (Or.inr ⟨noLead_pyStrip _, noTrail_pyStrip _⟩) hss' ch hch
      · rw [packLoop, if_neg h1] at hch
        by_cases hb : buf.isEmpty
        · rw [if_pos hb] at hch
          exact ih _ (Or.inr hs) hss' ch hch
        · rw [if_neg hb] at hch
          rcases List.mem_cons.mp hch with hch | hch
          · subst hch
            rcases hbuf with h0 | h0
            · subst h0; simp [List.isEmpty_iff] at hb
            · exact h0
          · exact ih _ (Or.inr hs) hss' ch hch

theorem packLoop_length_or_sentence (m : Nat) (S : List (List Char)) :
    ∀ (ss : List (List Char)) (buf : List Char),
      (buf.length ≤ m ∨ buf ∈ S) →
      (∀ s ∈ ss, s ∈ S) →
      ∀ ch ∈ packLoop m buf ss, ch.length ≤ m ∨ ch ∈ S := by
  intro ss
  induction ss with
  | nil =>
      intro buf hbuf _ ch hch
      by_cases hb : buf.isEmpty
      · simp [packLoop, hb] at hch
      · rw [packLoop, if_neg hb] at hch
        rw [List.mem_singleton] at hch
        subst hch
        exact hbuf
  | cons s ss ih =>
      intro buf hbuf hss ch hch
      have hsS : s ∈ S := hss s (by simp)
      have hss' : ∀ x ∈ ss, x ∈ S := fun x hx => hss x (by simp [hx])
      by_cases h1 : buf.length + s.length + 1 ≤ m
      · rw [packLoop, if_pos h1] at hch
        refine ih _ (Or.inl ?_) hss' ch hch
        calc (pyStrip (buf ++ ' ' :: s)).length
            ≤ (buf ++ ' ' :: s).length := pyStrip_length_le _
          _ = buf.length + s.length + 1 := by simp; omega
          _ ≤ m := h1
      · rw [packLoop, if_neg h1] at hch
        by_cases hb : buf.isEmpty
        · rw [if_pos hb] at hch
          exact ih _ (Or.inr hsS) hss' ch hch
        · rw [if_neg hb] at hch
          rcases List.mem_cons.mp hch with hch | hch
          · subst hch; exact hbuf
          · exact ih _ (Or.inr hsS) hss' ch hch

/-! ### Joining lemmas -/

theorem strippedNE_glue {buf s : List Char} (hb : strippedNE buf)
    (hs : strippedNE s) :
    pyStrip (buf ++ ' ' :: s) = buf ++ ' ' :: s ∧ strippedNE (buf ++ ' ' :: s) := by
  obtain ⟨hbne, hbl, hbt⟩ := hb
  obtain ⟨hsne, hsl, hst⟩ := hs
  have h1 : noLead (buf ++ ' ' :: s) = true := by
    rw [noLead_append_left _ _ hbne]; exact hbl
  have h2 : noTrail (buf ++ ' ' :: s) = true := by
    rw [noTrail_append_right _ _ (by simp)]
    have : (' ' :: s) = [' '] ++ s := rfl
    rw [this, noTrail_append_right _ _ hsne]
    exact hst
  exact ⟨pyStrip_of_stripped h1 h2, by simp, h1, h2⟩

theorem pyStrip_space_stripped {s : List Char} (hs : strippedNE s) :
    pyStrip (' ' :: s) = s := by
  rw [pyStrip_space_cons, pyStrip_of_stripped hs.2.1 hs.2.2]

theorem joinSp_cons_of_ne (x : List Char) {L : List (List Char)} (hL : L ≠ []) :
    joinSp (x :: L) = x ++ ' ' :: joinSp L := by
  cases L with
  | nil => exact absurd rfl hL
  | cons y L' => rfl

theorem joinSp_cons_ne_nil {s : List Char} (hs : s ≠ []) (ss : List (List Char)) :
    joinSp (s :: ss) ≠ [] := by
  cases ss with
  | nil => simpa [joinSp] using hs
  | cons t ss' => simp [joinSp, hs]

theorem joinBufSp_cons {s : List Char} (hs : strippedNE s) (ss : List (List Char))
    (hss : ∀ x ∈ ss, strippedNE x) :
    joinBufSp s (joinSp ss) = joinSp (s :: ss) := by
  cases ss with
  | nil => simp [joinBufSp, joinSp, hs.1]
  | cons t ss' =>
      have ht : t ≠ [] := (hss t (by simp)).1
      have h2 : joinSp (t :: ss') ≠ [] := joinSp_cons_ne_nil ht ss'
      rw [joinBufSp, if_neg hs.1, if_neg h2,
        @joinSp_cons_of_ne s (t :: ss') (by simp)]

theorem packLoop_ne_nil (m : Nat) :
    ∀ (ss : List (List Char)) (buf : List Char), strippedNE buf →
      (∀ s ∈ ss, strippedNE s) → packLoop m buf ss ≠ [] := by
  intro ss
  induction ss with
  | nil =>
      intro buf hbuf _
      have : ¬ buf.isEmpty = true := by simpa [List.isEmpty_iff] using hbuf.1
      rw [packLoop, if_neg this]
      simp
  | cons s ss ih =>
      intro buf hbuf hss
      have hs : strippedNE s := hss s (by simp)
      have hss' : ∀ x ∈ ss, strippedNE x := fun x hx => hss x (by simp [hx])
      by_cases h1 : buf.length + s.length + 1 ≤ m
      · rw [packLoop, if_pos h1]
        obtain ⟨heq, hne⟩ := strippedNE_glue hbuf hs
        rw [heq]
        exact ih _ hne hss'
      · have : ¬ buf.isEmpty = true := by simpa [List.isEmpty_iff] using hbuf.1
        rw [packLoop, if_neg h1, if_neg this]
        simp

theorem packLoop_join (m : Nat) :
    ∀ (ss : List (List Char)) (buf : List Char),
      (buf = [] ∨ strippedNE buf) →
      (∀ s ∈ ss, strippedNE s) →
      joinSp (packLoop m buf ss) = joinBufSp buf (joinSp ss) := by
  intro ss
  induction ss with
  | nil =>
      intro buf hbuf _
      rcases hbuf with h0 | h0
      · subst h0; simp [packLoop, joinSp, joinBufSp]
      · have : ¬ buf.isEmpty = true := by simpa [List.isEmpty_iff] using h0.1
        rw [packLoop, if_neg this]
        simp [joinSp, joinBufSp, h0.1]
  | cons s ss ih =>
      intro buf hbuf hss
      have hs : strippedNE s := hss s (by simp)
      have hss' : ∀ x ∈ ss, strippedNE x := fun x hx => hss x (by simp [hx])
      by_cases h1 : buf.length + s.length + 1 ≤ m
      · rw [packLoop, if_pos h1]
        rcases hbuf with h0 | h0
        · subst h0
          have heq : pyStrip ([] ++ ' ' :: s) = s := by
            simpa using pyStrip_space_stripped hs
          rw [heq, ih s (Or.inr hs) hss', joinBufSp_cons hs ss hss']
          simp [joinBufSp]
        · obtain ⟨heq, hne⟩ := strippedNE_glue h0 hs
          rw [heq, ih _ (Or.inr hne) hss']
          rw [joinBufSp, if_neg hne.1, joinBufSp,
            if_neg h0.1, if_neg (joinSp_cons_ne_nil hs.1 ss)]
          cases ss with
          | nil =>
              simp [joinSp]
          | cons t ss2 =>
              have ht : t ≠ [] := (hss' t (by simp)).1
              rw [if_neg (joinSp_cons_ne_nil ht ss2),
                joinSp_cons_of_ne s (by simp)]
              simp
      · rw [packLoop, if_neg h1]
        rcases hbuf with h0 | h0
        · subst h0
          rw [if_pos (by simp), ih s (Or.inr hs) hss', joinBufSp_cons hs ss hss']
          simp [joinBufSp]
        · have hbne : ¬ buf.isEmpty = true := by
            simpa [List.isEmpty_iff] using h0.1
          rw [if_neg hbne]
          have hL : packLoop m s ss ≠ [] := packLoop_ne_nil m ss s hs hss'
          rw [joinSp_cons_of_ne buf hL, ih s (Or.inr hs) hss',
            joinBufSp_cons hs ss hss', joinBufSp, if_neg h0.1,
            if_neg (joinSp_cons_ne_nil hs.1 ss)]

/-! ### Synthesis lemmas -/

theorem foldl_audio_eq (frames : List Frame) : ∀ acc : List Nat,
    frames.foldl (fun acc fr => if fr.1 == audioType then acc ++ fr.2 else acc) acc
      = acc ++ audioBytes frames := by
  induction frames with
  | nil => intro acc; simp [audioBytes, joinBytes]
  | cons fr rest ih =>
      intro acc
      by_cases h : (fr.1 == audioType) = true
      · simp only [List.foldl_cons, h, if_true, ih]
        simp [audioBytes, List.filter_cons, h, joinBytes]
      · simp only [List.foldl_cons, h, if_false, ih]
        simp [audioBytes, List.filter_cons, h]

theorem edge_tts_once_ok
    (svc : List Char → List Char → List Char → List Char → Except Unit (List Frame))
    (text voice rate pitch : List Char) (frames : List Frame)
    (h : svc text voice rate pitch = Except.ok frames) :
    edge_tts_once svc text voice rate pitch = Except.ok (audioBytes frames) := by
  unfold edge_tts_once
  rw [h]
  show Except.ok (frames.foldl
      (fun acc fr => if fr.1 == audioType then acc ++ fr.2 else acc) [])
    = Except.ok (audioBytes frames)
  rw [foldl_audio_eq frames ([] : List Nat)]
  simp

theorem synthParts_ok
    (svc : List Char → List Char → List Char → List Char → Except Unit (List Frame))
    (voice rate pitch : List Char) (F : List Char → List Frame) :
    ∀ cs : List (List Char),
      (∀ c ∈ cs, svc c voice rate pitch = Except.ok (F c)) →
      synthParts svc voice rate pitch cs
        = Except.ok (cs.map fun c => audioBytes (F c)) := by
  intro cs
  induction cs with
  | nil => intro _; rfl
  | cons c cs ih =>
      intro h
      have hc := edge_tts_once_ok svc c voice rate pitch (F c) (h c (by simp))
      rw [synthParts, hc, ih (fun x hx => h x (by simp [hx]))]
      simp

theorem synthParts_err
    (svc : List Char → List Char → List Char → List Char → Except Unit (List Frame))
    (voice rate pitch : List Char) (c : List Char) :
    ∀ cs : List (List Char), c ∈ cs →
      svc c voice rate pitch = Except.error () →
      synthParts svc voice rate pitch cs = Except.error () := by
  intro cs
  induction cs with
  | nil => intro h; cases h
  | cons c' cs ih =>
      intro hmem hfail
      rw [synthParts]
      cases hsvc : edge_tts_once svc c' voice rate pitch with
      | error e => cases e; rfl
      | ok b =>
          have hc' : c ∈ cs := by
            rcases List.mem_cons.mp hmem with h0 | h0
            · subst h0
              rw [edge_tts_once, hfail] at hsvc
              cases hsvc
            · exact h0
          rw [ih hc' hfail]

/-! ### Claim theorems -/

/-- C1: for every input text and voice profile, when every per-chunk collaborator
call succeeds, `synth_all` performs one synthesis call per chunk in the original
chunk order (the per-chunk results appear as the ordered map over
`chunk_text text 2000`), keeps only the frames whose type is "audio", and
returns exactly the concatenation of the per-chunk audio byte buffers in chunk
order. -/
theorem C1_synth_all_audio_concat
    (svc : List Char → List Char → List Char → List Char → Except Unit (List Frame))
    (text voice rate pitch : List Char) (F : List Char → List Frame)
    (h : ∀ c ∈ chunk_text text 2000, svc c voice rate pitch = Except.ok (F c)) :
    synthParts svc voice rate pitch (chunk_text text 2000)
      = Except.ok ((chunk_text text 2000).map fun c => audioBytes (F c)) ∧
    synth_all svc text voice rate pitch
      = Except.ok (joinBytes ((chunk_text text 2000).map fun c => audioBytes (F c))) := by
  have h1 := synthParts_ok svc voice rate pitch F (chunk_text text 2000) h
  refine ⟨h1, ?_⟩
  unfold synth_all
  rw [h1]

/-- Witness for C1 at a concrete input: a stream with two audio frames around a
non-audio frame yields exactly the two audio payloads concatenated. -/
theorem C1_witness :
    synth_all
        (fun _ _ _ _ => Except.ok [(audioType, [1, 2]), (['m'], [9]), (audioType, [3])])
        ['h', 'i'] ['v'] ['r'] ['p']
      = Except.ok (joinBytes ((chunk_text ['h', 'i'] 2000).map
          fun _ => audioBytes [(audioType, [1, 2]), (['m'], [9]), (audioType, [3])])) ∧
    joinBytes ((chunk_text ['h', 'i'] 2000).map
        fun _ => audioBytes [(audioType, [1, 2]), (['m'], [9]), (audioType, [3])])
      = [1, 2, 3] :=
  ⟨(C1_synth_all_audio_concat
      (fun _ _ _ _ => Except.ok [(audioType, [1, 2]), (['m'], [9]), (audioType, [3])])
      ['h', 'i'] ['v'] ['r'] ['p']
      (fun _ => [(audioType, [1, 2]), (['m'], [9]), (audioType, [3])])
      (fun _ _ => rfl)).2,
   by decide⟩

/-- C2: if the per-segment synthesis call fails for any chunk, the whole
`synth_all` operation fails: the error propagates and no byte result (partial
or otherwise) is returned. -/
theorem C2_synth_all_failure_propagates
    (svc : List Char → List Char → List Char → List Char → Except Unit (List Frame))
    (text voice rate pitch c : List Char)
    (hc : c ∈ chunk_text text 2000)
    (hfail : svc c voice rate pitch = Except.error ()) :
    synth_all svc text voice rate pitch = Except.error () := by
  unfold synth_all
  rw [synthParts_err svc voice rate pitch c (chunk_text text 2000) hc hfail]

/-- Witness for C2: an always-failing collaborator makes `synth_all` fail. -/
theorem C2_witness :
    synth_all (fun _ _ _ _ => Except.error ()) ['h', 'i'] ['v'] ['r'] ['p']
      = Except.error () :=
  C2_synth_all_failure_propagates (fun _ _ _ _ => Except.error ())
    ['h', 'i'] ['v'] ['r'] ['p'] ['h', 'i'] (by decide) rfl

/-- C3: for every input whose trimmed length is at most `max_chars`,
`chunk_text` returns the single segment equal to the trimmed input. -/
theorem C3_chunk_text_single (text : List Char) (m : Nat)
    (h : (pyStrip text).length ≤ m) :
    chunk_text text m = [pyStrip text] := by
  unfold chunk_text
  rw [if_pos h]

/-- Witness for C3: a short input with surrounding whitespace chunks to its
trimmed self. -/
theorem C3_witness :
    chunk_text [' ', 'h', 'i', ' '] 10 = [pyStrip [' ', 'h', 'i', ' ']] ∧
    pyStrip [' ', 'h', 'i', ' '] = ['h', 'i'] :=
  ⟨C3_chunk_text_single [' ', 'h', 'i', ' '] 10 (by decide), by decide⟩

/-- C4: every segment of `chunk_text` that exceeds `max_chars` is one of the
sentences produced by the `(?<=[.!?])\s+` split of the trimmed input, i.e. a
single oversized sentence emitted alone; all other segments obey the bound. -/
theorem C4_segment_length_bound (text : List Char) (m : Nat) :
    ∀ seg ∈ chunk_text text m, m < seg.length →
      seg ∈ splitSentences (pyStrip text) := by
  intro seg hseg hlen
  unfold chunk_text at hseg
  by_cases h : (pyStrip text).length ≤ m
  · rw [if_pos h, List.mem_singleton] at hseg
    subst hseg
    omega
  · rw [if_neg h] at hseg
    have h2 := packLoop_length_or_sentence m (splitSentences (pyStrip text))
      (splitSentences (pyStrip text)) [] (Or.inl (by simp)) (fun _ hs => hs) seg hseg
    rcases h2 with h2 | h2
    · omega
    · exact h2

/-- Witness for C4: with budget 10, the oversized sentence "This is a test."
is emitted alone and is one of the split sentences. -/
theorem C4_witness :
    "This is a test.".toList ∈ chunk_text "Hello. This is a test.".toList 10 ∧
    10 < "This is a test.".toList.length ∧
    "This is a test.".toList ∈ splitSentences (pyStrip "Hello. This is a test.".toList) :=
  ⟨by decide, by decide,
   C4_segment_length_bound "Hello. This is a test.".toList 10
     "This is a test.".toList (by decide) (by decide)⟩

/-- C5: when the inter-sentence whitespace of the trimmed input is always a
single space (joining the split sentences with one space reproduces the trimmed
input), joining the segments of `chunk_text` with a single space reconstructs
the trimmed original exactly. -/
theorem C5_rejoin (text : List Char) (m : Nat)
    (h : joinSp (splitSentences (pyStrip text)) = pyStrip text) :
    joinSp (chunk_text text m) = pyStrip text := by
  unfold chunk_text
  by_cases hlen : (pyStrip text).length ≤ m
  · rw [if_pos hlen]
    rfl
  · rw [if_neg hlen]
    have htne : pyStrip text ≠ [] := by
      intro h0
      rw [h0] at hlen
      simp at hlen
    have hpieces : ∀ p ∈ splitSentences (pyStrip text), strippedNE p :=
      splitSentences_pieces ⟨htne, noLead_pyStrip text, noTrail_pyStrip text⟩
    rw [packLoop_join m (splitSentences (pyStrip text)) [] (Or.inl rfl) hpieces,
      joinBufSp, if_pos rfl]
    exact h

/-- Witness for C5: a three-sentence input packed with budget 7 rejoins to the
trimmed original. -/
theorem C5_witness :
    joinSp (chunk_text "ab. cd. ef.".toList 7) = pyStrip "ab. cd. ef.".toList ∧
    chunk_text "ab. cd. ef.".toList 7 = ["ab. cd.".toList, "ef.".toList] :=
  ⟨C5_rejoin "ab. cd. ef.".toList 7 (by decide), by decide⟩

/-- C6 counterexample: on empty input `chunk_text` returns a segment that is
the empty string, so the claim that every segment is non-empty for every input
fails as stated. -/
theorem C6_counterexample : [] ∈ chunk_text ([] : List Char) 2000 := by decide

/-- C6 (amended): for every input whose trimmed form is non-empty, no segment
returned by `chunk_text` is the empty string. -/
theorem C6_segments_nonempty (text : List Char) (m : Nat)
    (h : pyStrip text ≠ []) :
    ∀ seg ∈ chunk_text text m, seg ≠ [] := by
  intro seg hseg
  unfold chunk_text at hseg
  by_cases hlen : (pyStrip text).length ≤ m
  · rw [if_pos hlen, List.mem_singleton] at hseg
    subst hseg
    exact h
  · rw [if_neg hlen] at hseg
    exact packLoop_ne_nil_mem m (splitSentences (pyStrip text)) [] seg hseg

/-- Witness for amended C6 at a concrete non-blank input. -/
theorem C6_witness :
    pyStrip ['h', 'i'] ≠ [] ∧ ∀ seg ∈ chunk_text ['h', 'i'] 1, seg ≠ [] :=
  ⟨by decide, C6_segments_nonempty ['h', 'i'] 1 (by decide)⟩

/-- C7 counterexample: the single-space input is non-empty, yet with the
collaborator unavailable `free_translate_to_english` returns the empty string,
not the input unchanged; so the claim fails for non-empty all-whitespace
inputs. -/
theorem C7_counterexample :
    ([' '] : List Char) ≠ [] ∧ free_translate_to_english none [' '] ≠ [' '] := by
  decide

/-- C7 (amended): for every input whose trimmed form is non-empty,
`free_translate_to_english` returns the input unchanged both when the
collaborator is unavailable and when the collaborator call raises; the failure
is absorbed, never propagated. -/
theorem C7_translate_fallback (text : List Char) (h : pyStrip text ≠ [])
    (f : List Char → Except Unit (List Char)) (hf : f text = Except.error ()) :
    free_translate_to_english none text = text ∧
    free_translate_to_english (some f) text = text := by
  have hne : ¬ (pyStrip text).isEmpty = true := by
    simpa [List.isEmpty_iff] using h
  refine ⟨?_, ?_⟩
  · unfold free_translate_to_english
    rw [if_neg hne]
  · unfold free_translate_to_english
    rw [if_neg hne]
    show (match f text with
      | Except.ok res => res
      | Except.error _ => text) = text
    rw [hf]

/-- Witness for amended C7 at a concrete input and a throwing collaborator. -/
theorem C7_witness :
    free_translate_to_english none ['h', 'i'] = ['h', 'i'] ∧
    free_translate_to_english (some fun _ => Except.error ()) ['h', 'i'] = ['h', 'i'] :=
  C7_translate_fallback ['h', 'i'] (by decide) (fun _ => Except.error ()) rfl

/-- C8: the rate and pitch sliders format as a sign character, the decimal
digits, and the "%" / "Hz" suffix; in particular rate −20 formats to "-20%"
and pitch 150 formats to "+150Hz". -/
theorem C8_rate_pitch_format :
    (∀ v : Int, ∃ ds : List Char,
      rate_str v = (if 0 ≤ v then '+' else '-') :: (ds ++ ['%']) ∧
      pitch_str v = (if 0 ≤ v then '+' else '-') :: (ds ++ ['H', 'z'])) ∧
    rate_str (-20) = ['-', '2', '0', '%'] ∧
    pitch_str 150 = ['+', '1', '5', '0', 'H', 'z'] :=
  ⟨fun v => ⟨Nat.toDigits 10 v.natAbs, rfl, rfl⟩, by decide, by decide⟩

/-- C9: pressing start in the idle state with `B ≤ A` is a no-op with a
user-facing warning (the whole state, including position and repeat counter,
is unchanged); with `A < B` the controller enters the looping state, loads the
repeat counter, seeks to `A` and starts playback, with no warning. -/
theorem C9_pressStart_guard (s : LoopState) (n : Nat) (h : s.looping = false) :
    (s.B ≤ s.A → pressStart n s = (s, true)) ∧
    (s.A < s.B → pressStart n s =
      ({ s with left := n, looping := true, pos := s.A, playing := true }, false)) := by
  constructor
  · intro hba
    unfold pressStart
    rw [if_pos h, if_pos hba]
  · intro hab
    unfold pressStart
    rw [if_pos h, if_neg (not_le.mpr hab)]

/-- Witness for C9: a degenerate range only warns; a valid range starts the
loop, seeks to `A`, and plays. -/
theorem C9_witness :
    pressStart 5 ⟨0, 0, false, 0, 0, false⟩ = (⟨0, 0, false, 0, 0, false⟩, true) ∧
    pressStart 3 ⟨0, 1, false, 7, 0, false⟩ = (⟨0, 1, true, 3, 0, true⟩, false) :=
  ⟨(C9_pressStart_guard ⟨0, 0, false, 0, 0, false⟩ 5 rfl).1 (by norm_num),
   by
     have h2 := (C9_pressStart_guard ⟨0, 1, false, 7, 0, false⟩ 3 rfl).2 (by norm_num)
     simpa using h2⟩

/-- C10: every segment returned by `chunk_text` has no leading and no trailing
whitespace. -/
theorem C10_segments_stripped (text : List Char) (m : Nat) :
    ∀ seg ∈ chunk_text text m, noLead seg = true ∧ noTrail seg = true := by
  intro seg hseg
  unfold chunk_text at hseg
  by_cases hlen : (pyStrip text).length ≤ m
  · rw [if_pos hlen, List.mem_singleton] at hseg
    subst hseg
    exact ⟨noLead_pyStrip text, noTrail_pyStrip text⟩
  · rw [if_neg hlen] at hseg
    have htne : pyStrip text ≠ [] := by
      intro h0
      rw [h0] at hlen
      simp at hlen
    have hp : ∀ p ∈ splitSentences (pyStrip text), strippedNE p :=
      splitSentences_pieces ⟨htne, noLead_pyStrip text, noTrail_pyStrip text⟩
    exact packLoop_stripped m (splitSentences (pyStrip text)) []
      (Or.inl rfl) (fun s hs => ⟨(hp s hs).2.1, (hp s hs).2.2⟩) seg hseg

/-- Witness for C10: an input with surrounding whitespace yields a segment
with stripped edges. -/
theorem C10_witness :
    noLead "ab. cd.".toList = true ∧ noTrail "ab. cd.".toList = true :=
  C10_segments_stripped "  ab. cd.  ".toList 20 "ab. cd.".toList (by decide)
